import Mathlib

/-!
Verification of `libratom/cli/utils.py` against its specification.

The Python module is shallowly embedded below:
* Python strings are `String`, compared and inspected through their
  character lists (`String.data`), matching CPython's code-point semantics
  for `split`, `startswith` and lexicographic comparison.
* `click.BadParameter` is the `ParameterError` type.
* The filesystem consulted by `validate_out_path` (`Path.is_file`) is a
  read-only predicate passed in explicitly.
* The local package registry consulted through
  `pkg_resources.get_distribution(name).version` (with `DistributionNotFound`
  giving no version) is a function `String → Option String`.
* The HTTP response of `requests.get` is a `Response` record: its `ok` flag
  and, for the successful case, the JSON-decoded body — a list of release
  objects each carrying a `name` string.
* A Python statement that raises an uncaught exception (the tuple-unpacking
  `for name, version in releases` over a list whose element is not a pair)
  is modelled with `Except Unit`; `.error ()` is an uncaught runtime error.
-/

namespace Libratom

instance {ε α : Type} [DecidableEq ε] [DecidableEq α] : DecidableEq (Except ε α)
  | .error e, .error f =>
    if h : e = f then .isTrue (by rw [h]) else .isFalse (fun hh => h (Except.error.inj hh))
  | .error _, .ok _ => .isFalse (fun hh => nomatch hh)
  | .ok _, .error _ => .isFalse (fun hh => nomatch hh)
  | .ok a, .ok b =>
    if h : a = b then .isTrue (by rw [h]) else .isFalse (fun hh => h (Except.ok.inj hh))

/-- Models `click.BadParameter`, carrying its human-readable message. -/
inductive ParameterError where
  | badParameter (message : String)
deriving DecidableEq

/-- Embedding of `validate_out_path`: raise `BadParameter` when the path names
an existing regular file, otherwise return the path unchanged.  The filesystem
is the read-only predicate `is_file`. -/
def validate_out_path (is_file : String → Bool) (value : String) :
    Except ParameterError String :=
  if is_file value then
    .error (.badParameter ("File \"" ++ value ++ "\" already exists."))
  else
    .ok value

/-- Embedding of `re.match(r"\d+(?:\.\d+)+", value)` being truthy: `re.match`
anchors at the start only, and the greedy pattern finds a match exactly when
the maximal leading digit run is nonempty and is immediately followed by a
dot and at least one digit (one `\.\d+` group suffices; the pattern is not
anchored at the end, so trailing characters are unconstrained). -/
def matchVersionChars (cs : List Char) : Bool :=
  !(cs.takeWhile Char.isDigit).isEmpty &&
    match cs.dropWhile Char.isDigit with
    | '.' :: r => !(r.takeWhile Char.isDigit).isEmpty
    | _ => false

/-- Embedding of `validate_version_string`: raise `BadParameter value` when
the version pattern does not match at the start of `value`, otherwise return
`value` unchanged. -/
def validate_version_string (value : String) : Except ParameterError String :=
  if matchVersionChars value.data then .ok value else .error (.badParameter value)

/-- A nonempty, all-digit character run — the language of `\d+`. -/
def digitRun (cs : List Char) : Prop := cs ≠ [] ∧ ∀ c ∈ cs, c.isDigit = true

/-- The specification's reading of the version pattern: the string begins with
one-or-more digits, followed by one or more groups of a dot and one-or-more
digits, followed by arbitrary residual characters (start-anchored only). -/
def versionSpecMatch (s : String) : Prop :=
  ∃ (d : List Char) (gs : List (List Char)) (rest : List Char),
    s.data = d ++ (gs.map (fun g => '.' :: g)).flatten ++ rest ∧
    digitRun d ∧ gs ≠ [] ∧ ∀ g ∈ gs, digitRun g

/-- Python's `str.split(sep)` on character lists, for a one-character
separator: split at every occurrence of `sep`, keeping empty segments, with
`"".split(sep) == [""]`. -/
def pySplitChars (sep : Char) : List Char → List (List Char)
  | [] => [[]]
  | c :: cs =>
    if c = sep then
      [] :: pySplitChars sep cs
    else
      match pySplitChars sep cs with
      | [] => [[c]]
      | p :: ps => (c :: p) :: ps

/-- Python's `s.split(sep)` for strings. -/
def pySplit (sep : Char) (s : String) : List String :=
  (pySplitChars sep s.data).map fun cs => String.mk cs

/-- Character-list prefix test (Python's `str.startswith` semantics). -/
def charsPre : List Char → List Char → Bool
  | [], _ => true
  | _ :: _, [] => false
  | a :: as, b :: bs => a == b && charsPre as bs

/-- Python's `s.startswith(pre)`. -/
def pyStartsWith (s pre : String) : Bool := charsPre pre.data s.data

/-- One release object of the JSON-decoded response body, exposing its
compound `name` field. -/
structure Release where
  name : String
deriving DecidableEq

/-- The outcome of `requests.get`: the `ok` success flag, and the decoded
body (a list of release objects) that `json.loads` yields on the successful
path. -/
structure Response where
  ok : Bool
  releases : List Release
deriving DecidableEq

/-- One data row of the final table: the model name, the locally installed
version when present, and the remote (latest) version. -/
structure ReportRow where
  name : String
  installed_version : Option String
  latest_version : String
deriving DecidableEq

/-- The printed table: the fixed header row followed by the data rows. -/
structure Report where
  header : List String
  rows : List ReportRow
deriving DecidableEq

/-- The fixed header row `["spaCy model", "installed version", "latest version"]`. -/
def reportHeader : List String := ["spaCy model", "installed version", "latest version"]

/-- The retained release names: the body of the `if model_name:` branch of
`list_spacy_models`.  Python truthiness makes `None` and `""` equivalent, both
skipping the filter; a truthy `model_name` keeps the names that start with it. -/
def retainedNames : Option String → List String → List String
  | some s, names => if s = "" then names else names.filter fun n => pyStartsWith n s
  | none, names => names

/-- The split pieces in response order: `release["name"].split("-")` applied
to every retained release. -/
def piecesOf (model_name : Option String) (releases : List Release) : List (List String) :=
  (retainedNames model_name (releases.map Release.name)).map (pySplit '-')

/-- Python's lexicographic `<=` on strings, by code points, on character
lists: `"" <= t` always, a longer string is above its proper extensions, and
otherwise the first differing code point decides. -/
def pyCharsLe : List Char → List Char → Bool
  | [], _ => true
  | _ :: _, [] => false
  | a :: as, b :: bs =>
    if a < b then true
    else if b < a then false
    else pyCharsLe as bs

/-- Python's `s <= t` on strings (case-sensitive, by code point). -/
def pyStrLe (s t : String) : Bool := pyCharsLe s.data t.data

/-- The sort key `lambda x: x[0]` of `releases.sort`; the pieces are never
empty (Python's `split` always yields at least one segment), so `headD`
coincides with Python's `x[0]`. -/
def pieceKey (piece : List String) : String := piece.headD ""

/-- Comparison of pieces by their sort key, as Python's sort compares them. -/
def pieceLe (a b : List String) : Prop := pyStrLe (pieceKey a) (pieceKey b) = true

instance : DecidableRel pieceLe := fun a b =>
  inferInstanceAs (Decidable (pyStrLe (pieceKey a) (pieceKey b) = true))

/-- `releases.sort(key=lambda x: x[0])`: Python's `list.sort` is a stable
sort by the key, and a stable sort's output is uniquely determined by the
input order, so the stable `insertionSort` by `pieceKey` models it exactly. -/
def sortPieces (pieces : List (List String)) : List (List String) :=
  List.insertionSort pieceLe pieces

/-- The row built from a well-formed piece `[name, version]`: look up the
installed version in the local registry, absorb a lookup miss into `none`. -/
def rowOf (registry : String → Option String) (piece : List String) : ReportRow :=
  { name := piece.headD ""
    installed_version := registry (piece.headD "")
    latest_version := piece.getD 1 "" }

/-- The `for name, version in releases:` loop: each piece is tuple-unpacked
into exactly two components — a piece of any other length raises an uncaught
`ValueError`, modelled by `.error ()` — and one table row is appended per
piece, with a registry miss (`DistributionNotFound`) giving `none`. -/
def buildRows (registry : String → Option String) :
    List (List String) → Except Unit (List ReportRow)
  | [] => .ok []
  | piece :: rest =>
    match piece with
    | [n, v] => Except.map (fun rows => ⟨n, registry n, v⟩ :: rows) (buildRows registry rest)
    | _ => .error ()

/-- Embedding of `list_spacy_models`.  The result is `.error ()` when the
Python function raises; otherwise `.ok (code, printed)` where `code` is the
returned status and `printed` is the table printed to stdout (`none` when
nothing is printed). -/
def list_spacy_models (registry : String → Option String) (response : Response)
    (model_name : Option String) : Except Unit (Int × Option Report) :=
  if response.ok = false then
    .ok (-1, none)
  else
    match buildRows registry (sortPieces (piecesOf model_name response.releases)) with
    | .error e => .error e
    | .ok rows => .ok (0, some ⟨reportHeader, rows⟩)

example : pySplit '-' "en_core_web_sm-2.3.1" = ["en_core_web_sm", "2.3.1"] := by decide
example : pySplit '-' "a-b-c" = ["a", "b", "c"] := by decide
example : pySplit '-' "abc" = ["abc"] := by decide
example : pySplit '-' "" = [""] := by decide
example : pySplit '-' "a--b" = ["a", "", "b"] := by decide
example : pyStartsWith "en_core_web_sm-2.3.1" "en_core_web" = true := by decide
example : pieceLe ["a", "1"] ["b", "2"] := by decide
example : matchVersionChars "1.2".data = true := by decide
example : matchVersionChars "v1.2".data = false := by decide
example : matchVersionChars "1".data = false := by decide

example :
    list_spacy_models (fun n => if n = "en_core_web_sm" then some "2.2.0" else none)
      ⟨true, [⟨"en_core_web_sm-2.3.1"⟩, ⟨"de_core_news_sm-2.3.0"⟩]⟩ none =
      .ok (0, some ⟨reportHeader,
        [⟨"de_core_news_sm", none, "2.3.0"⟩,
         ⟨"en_core_web_sm", some "2.2.0", "2.3.1"⟩]⟩) := by decide

/-! ### Basic lemmas about the string primitives -/

theorem pyCharsLe_total (x y : List Char) : pyCharsLe x y = true ∨ pyCharsLe y x = true := by
  induction x generalizing y with
  | nil => exact Or.inl rfl
  | cons a as ih =>
    cases y with
    | nil => exact Or.inr rfl
    | cons b bs =>
      rcases lt_trichotomy a b with hab | hab | hab
      · left; simp [pyCharsLe, hab]
      · subst hab
        rcases ih bs with h | h <;> [left; right] <;> simp [pyCharsLe, h]
      · right; simp [pyCharsLe, hab]

theorem pyCharsLe_trans {x y z : List Char} (h1 : pyCharsLe x y = true)
    (h2 : pyCharsLe y z = true) : pyCharsLe x z = true := by
  induction x generalizing y z with
  | nil => rfl
  | cons a as ih =>
    cases y with
    | nil => simp [pyCharsLe] at h1
    | cons b bs =>
      cases z with
      | nil => simp [pyCharsLe] at h2
      | cons c cs =>
        rcases lt_trichotomy a b with hab | hab | hab
        · rcases lt_trichotomy b c with hbc | hbc | hbc
          · simp [pyCharsLe, lt_trans hab hbc]
          · subst hbc; simp [pyCharsLe, hab]
          · simp [pyCharsLe, hbc, not_lt_of_gt hbc] at h2
        · subst hab
          simp only [pyCharsLe, if_neg (lt_irrefl a)] at h1
          rcases lt_trichotomy a c with hac | hac | hac
          · simp [pyCharsLe, hac]
          · subst hac
            simp only [pyCharsLe, if_neg (lt_irrefl a)] at h2 ⊢
            exact ih h1 h2
          · simp [pyCharsLe, hac, not_lt_of_gt hac] at h2
        · simp [pyCharsLe, hab, not_lt_of_gt hab] at h1

theorem pyCharsLe_refl (x : List Char) : pyCharsLe x x = true := by
  induction x with
  | nil => rfl
  | cons a as ih => simp [pyCharsLe, lt_irrefl, ih]

/-- `charsPre` decides the prefix relation. -/
theorem charsPre_iff (p s : List Char) : charsPre p s = true ↔ p <+: s := by
  induction p generalizing s with
  | nil => simp [charsPre]
  | cons a as ih =>
    cases s with
    | nil =>
      simp only [charsPre, Bool.false_eq_true, false_iff]
      rintro ⟨t, ht⟩
      exact nomatch ht
    | cons b bs =>
      simp only [charsPre, Bool.and_eq_true, beq_iff_eq, ih]
      constructor
      · rintro ⟨rfl, t, rfl⟩
        exact ⟨t, rfl⟩
      · rintro ⟨t, ht⟩
        rw [List.cons_append] at ht
        cases ht
        exact ⟨rfl, t, rfl⟩

theorem pySplitChars_ne_nil (sep : Char) (cs : List Char) : pySplitChars sep cs ≠ [] := by
  induction cs with
  | nil => simp [pySplitChars]
  | cons c cs ih =>
    by_cases h : c = sep
    · simp [pySplitChars, h]
    · simp only [pySplitChars, if_neg h]
      cases hh : pySplitChars sep cs with
      | nil => simp
      | cons p ps => simp

theorem pySplitChars_singleton {sep : Char} {cs x : List Char}
    (h : pySplitChars sep cs = [x]) : cs = x := by
  induction cs generalizing x with
  | nil =>
    simp only [pySplitChars, List.cons.injEq, and_true] at h
    exact h
  | cons c cs ih =>
    by_cases hc : c = sep
    · rw [pySplitChars, if_pos hc] at h
      simp only [List.cons.injEq] at h
      exact absurd h.2 (pySplitChars_ne_nil sep cs)
    · rw [pySplitChars, if_neg hc] at h
      cases hh : pySplitChars sep cs with
      | nil => exact absurd hh (pySplitChars_ne_nil sep cs)
      | cons p ps =>
        rw [hh] at h
        simp only [List.cons.injEq] at h
        obtain ⟨rfl, rfl⟩ := h
        rw [ih (x := p) (by rw [hh])]

/-- Inverting a two-piece split: the original had exactly one separator. -/
theorem pySplitChars_pair {sep : Char} {cs x y : List Char}
    (h : pySplitChars sep cs = [x, y]) : cs = x ++ sep :: y := by
  induction cs generalizing x with
  | nil => simp [pySplitChars] at h
  | cons c cs ih =>
    by_cases hc : c = sep
    · subst hc
      rw [pySplitChars, if_pos rfl] at h
      simp only [List.cons.injEq] at h
      obtain ⟨h1, h2⟩ := h
      subst h1
      rw [pySplitChars_singleton h2]
      rfl
    · rw [pySplitChars, if_neg hc] at h
      cases hh : pySplitChars sep cs with
      | nil => exact absurd hh (pySplitChars_ne_nil sep cs)
      | cons p ps =>
        rw [hh] at h
        simp only [List.cons.injEq] at h
        obtain ⟨rfl, h2⟩ := h
        have : cs = p ++ sep :: y := ih (by rw [hh, h2])
        rw [List.cons_append, this]

/-- A separator-free list splits into the single piece that is itself. -/
theorem pySplitChars_of_not_mem {sep : Char} {cs : List Char} (h : sep ∉ cs) :
    pySplitChars sep cs = [cs] := by
  induction cs with
  | nil => rfl
  | cons c cs ih =>
    have hc : c ≠ sep := fun hh => h (hh ▸ List.mem_cons_self c cs)
    rw [pySplitChars, if_neg hc, ih fun hm => h (List.mem_cons_of_mem c hm)]

/-- Splitting a list built around one separator whose left part is
separator-free peels off the left part. -/
theorem pySplitChars_append {sep : Char} {a : List Char} (b : List Char) (h : sep ∉ a) :
    pySplitChars sep (a ++ sep :: b) = a :: pySplitChars sep b := by
  induction a with
  | nil => simp [pySplitChars]
  | cons c as ih =>
    have hc : c ≠ sep := fun hh => h (hh ▸ List.mem_cons_self c as)
    rw [List.cons_append, pySplitChars, if_neg hc,
      ih fun hm => h (List.mem_cons_of_mem c hm)]

theorem takeWhile_append_cons {p : Char → Bool} {d : List Char} {x : Char}
    (hd : ∀ c ∈ d, p c = true) (hx : p x = false) (t : List Char) :
    (d ++ x :: t).takeWhile p = d ∧ (d ++ x :: t).dropWhile p = x :: t := by
  induction d with
  | nil => simp [List.takeWhile_cons, List.dropWhile_cons, hx]
  | cons c cs ih =>
    have hc : p c = true := hd c (List.mem_cons_self c cs)
    have := ih fun c hc => hd c (List.mem_cons_of_mem _ hc)
    simp [List.takeWhile_cons, List.dropWhile_cons, hc, this.1, this.2]

/-- The executable matcher agrees with the specification's reading of the
pattern `\d+(?:\.\d+)+` anchored at the start only. -/
theorem matchVersionChars_iff (s : String) :
    matchVersionChars s.data = true ↔ versionSpecMatch s := by
  unfold matchVersionChars versionSpecMatch
  constructor
  · intro h
    rw [Bool.and_eq_true] at h
    obtain ⟨h1, h2⟩ := h
    have hd : s.data.takeWhile Char.isDigit ≠ [] := by
      intro hh
      rw [hh] at h1
      exact absurd h1 (by decide)
    split at h2
    case h_2 => exact absurd h2 (by decide)
    case h_1 r hr =>
      have h2' : r.takeWhile Char.isDigit ≠ [] := by
        intro hh
        rw [hh] at h2
        exact absurd h2 (by decide)
      refine ⟨s.data.takeWhile Char.isDigit, [r.takeWhile Char.isDigit],
        r.dropWhile Char.isDigit, ?_,
        ⟨hd, fun c hc => List.mem_takeWhile_imp hc⟩, by simp, ?_⟩
      · conv_lhs => rw [← List.takeWhile_append_dropWhile Char.isDigit s.data, hr,
          ← List.takeWhile_append_dropWhile Char.isDigit r]
        simp
      · intro g hg
        simp only [List.mem_singleton] at hg
        subst hg
        exact ⟨h2', fun c hc => List.mem_takeWhile_imp hc⟩
  · rintro ⟨d, gs, rest, heq, ⟨hdne, hdall⟩, hgs, hall⟩
    cases gs with
    | nil => exact absurd rfl hgs
    | cons g1 gs' =>
      obtain ⟨hg1ne, hg1all⟩ := hall g1 (List.mem_cons_self g1 gs')
      have heq' : s.data =
          d ++ '.' :: (g1 ++ ((gs'.map fun g => '.' :: g).flatten ++ rest)) := by
        rw [heq]
        simp
      obtain ⟨ht, hdrop⟩ := takeWhile_append_cons hdall
        (show Char.isDigit '.' = false by decide)
        (g1 ++ ((gs'.map fun g => '.' :: g).flatten ++ rest))
      rw [heq', ht, hdrop]
      cases d with
      | nil => exact absurd rfl hdne
      | cons d0 ds =>
        cases g1 with
        | nil => exact absurd rfl hg1ne
        | cons c g1' =>
          have hc : Char.isDigit c = true := hg1all c (List.mem_cons_self c g1')
          simp [List.takeWhile_cons, hc]

/-! ### Lemmas about the row-building loop and the sort -/

/-- The loop succeeds exactly on lists of two-component pieces, and then
yields one row per piece, in order. -/
theorem buildRows_ok_iff (registry : String → Option String) (l : List (List String))
    (rows : List ReportRow) :
    buildRows registry l = .ok rows ↔
      (∀ p ∈ l, p.length = 2) ∧ rows = l.map (rowOf registry) := by
  induction l generalizing rows with
  | nil => simp [buildRows, eq_comm]
  | cons p rest ih =>
    obtain - | ⟨n, - | ⟨v, - | ⟨w, tl⟩⟩⟩ := p
    · simp [buildRows]
    · simp [buildRows]
    · cases hb : buildRows registry rest with
      | error e =>
        simp only [buildRows, hb, Except.map]
        constructor
        · intro hh
          exact nomatch hh
        · rintro ⟨hlen, rfl⟩
          have : buildRows registry rest = .ok (rest.map (rowOf registry)) :=
            (ih _).mpr ⟨fun q hq => hlen q (List.mem_cons_of_mem _ hq), rfl⟩
          rw [hb] at this
          exact nomatch this
      | ok rs =>
        obtain ⟨hlen, rfl⟩ := (ih rs).mp hb
        simp only [buildRows, hb, Except.map, List.map_cons, Except.ok.injEq]
        constructor
        · rintro rfl
          refine ⟨fun q hq => ?_, rfl⟩
          rcases List.mem_cons.mp hq with rfl | hq
          · rfl
          · exact hlen q hq
        · rintro ⟨-, rfl⟩
          rfl
    · constructor
      · intro hh
        exact nomatch hh
      · rintro ⟨hlen, -⟩
        have := hlen (n :: v :: w :: tl) (List.mem_cons_self _ _)
        simp at this

/-- Success case of `list_spacy_models`, unfolded. -/
theorem list_spacy_models_ok_iff (registry : String → Option String) (response : Response)
    (model_name : Option String) (rep : Report) :
    list_spacy_models registry response model_name = .ok (0, some rep) ↔
      response.ok = true ∧ rep.header = reportHeader ∧
      buildRows registry (sortPieces (piecesOf model_name response.releases)) =
        .ok rep.rows := by
  obtain ⟨hdr, rws⟩ := rep
  unfold list_spacy_models
  cases hok : response.ok with
  | false => simp
  | true =>
    rw [if_neg]
    case hnc => exact fun hh => nomatch hh
    cases hb : buildRows registry (sortPieces (piecesOf model_name response.releases)) with
    | error e =>
      constructor
      · intro hh
        exact nomatch hh
      · rintro ⟨-, -, hh⟩
        exact nomatch hh
    | ok rows =>
      simp only [Except.ok.injEq, Prod.mk.injEq, Option.some.injEq, Report.mk.injEq,
        eq_self_iff_true, true_and]
      constructor
      · rintro ⟨h1, h2⟩
        exact ⟨h1.symm, h2⟩
      · rintro ⟨h1, h2⟩
        exact ⟨h1.symm, h2⟩

theorem mem_sortPieces {p : List String} {l : List (List String)} :
    p ∈ sortPieces l ↔ p ∈ l :=
  List.mem_insertionSort pieceLe

theorem sorted_sortPieces (l : List (List String)) : List.Sorted pieceLe (sortPieces l) :=
  @List.sorted_insertionSort (List String) pieceLe inferInstance
    ⟨fun _ _ => pyCharsLe_total _ _⟩ ⟨fun _ _ _ h1 h2 => pyCharsLe_trans h1 h2⟩ l

theorem perm_sortPieces (l : List (List String)) : (sortPieces l).Perm l :=
  List.perm_insertionSort pieceLe l

/-- Inserting a piece with key `k` puts it in front of every later piece
with key `k`: all pieces skipped over have strictly smaller keys. -/
theorem filter_orderedInsert_of_key {k : String} {x : List String} (hx : pieceKey x = k)
    (l : List (List String)) :
    (l.orderedInsert pieceLe x).filter (fun p => pieceKey p == k) =
      x :: l.filter (fun p => pieceKey p == k) := by
  induction l with
  | nil => simp [List.orderedInsert, hx]
  | cons y ys ih =>
    by_cases h : pieceLe x y
    · rw [List.orderedInsert_of_le pieceLe ys h]
      simp [hx]
    · have hy : (pieceKey y == k) = false := by
        rw [beq_eq_false_iff_ne]
        rintro rfl
        refine h (show pyCharsLe (pieceKey x).data (pieceKey y).data = true from ?_)
        rw [hx]
        exact pyCharsLe_refl (pieceKey y).data
      simp only [List.orderedInsert, if_neg h, List.filter_cons, hy, ih]
      simp

theorem filter_orderedInsert_of_ne {k : String} {x : List String} (hx : pieceKey x ≠ k)
    (l : List (List String)) :
    (l.orderedInsert pieceLe x).filter (fun p => pieceKey p == k) =
      l.filter (fun p => pieceKey p == k) := by
  have hxb : (pieceKey x == k) = false := beq_eq_false_iff_ne.mpr hx
  induction l with
  | nil => simp [List.orderedInsert, hxb]
  | cons y ys ih =>
    by_cases h : pieceLe x y
    · rw [List.orderedInsert_of_le pieceLe ys h]
      simp [hxb]
    · simp only [List.orderedInsert, if_neg h, List.filter_cons, ih]

/-- Stability of the sort: within one key class, the sorted list carries
the pieces in their original order. -/
theorem filter_sortPieces (k : String) (l : List (List String)) :
    (sortPieces l).filter (fun p => pieceKey p == k) =
      l.filter (fun p => pieceKey p == k) := by
  induction l with
  | nil => rfl
  | cons x xs ih =>
    show ((sortPieces xs).orderedInsert pieceLe x).filter _ = _
    by_cases hx : pieceKey x = k
    · rw [filter_orderedInsert_of_key hx, ih]
      simp [List.filter_cons, hx]
    · rw [filter_orderedInsert_of_ne hx, ih]
      simp [List.filter_cons, beq_eq_false_iff_ne.mpr hx]

/-- Retention is invariant, as a permutation, under permuting the input. -/
theorem retainedNames_perm {names1 names2 : List String} (mn : Option String)
    (h : names1.Perm names2) : (retainedNames mn names1).Perm (retainedNames mn names2) := by
  cases mn with
  | none => exact h
  | some s =>
    by_cases hs : s = ""
    · simpa [retainedNames, hs] using h
    · simpa [retainedNames, hs] using h.filter _

/-! ### Shared characterizations of the success path -/

/-- Anything retained was in the input. -/
theorem mem_retainedNames {mn : Option String} {names : List String} {n : String}
    (h : n ∈ retainedNames mn names) : n ∈ names := by
  cases mn with
  | none => exact h
  | some s =>
    rw [retainedNames] at h
    by_cases hs : s = ""
    · rw [if_pos hs] at h
      exact h
    · rw [if_neg hs] at h
      exact (List.mem_filter.mp h).1

/-- When every retained identifier splits in two, the operation succeeds and
prints the sorted table. -/
theorem ok_of_lengths (registry : String → Option String) (response : Response)
    (model_name : Option String) (hok : response.ok = true)
    (hsplit : ∀ n ∈ retainedNames model_name (response.releases.map Release.name),
      (pySplit '-' n).length = 2) :
    list_spacy_models registry response model_name =
      .ok (0, some ⟨reportHeader,
        (sortPieces (piecesOf model_name response.releases)).map (rowOf registry)⟩) := by
  rw [list_spacy_models_ok_iff]
  refine ⟨hok, rfl, ?_⟩
  rw [buildRows_ok_iff]
  refine ⟨?_, rfl⟩
  intro p hp
  rw [mem_sortPieces] at hp
  obtain ⟨n, hn, rfl⟩ := List.mem_map.mp hp
  exact hsplit n hn

/-- Conversely, success forces the response flag, the fixed header, the
sorted row list, and two-part splits of every retained identifier. -/
theorem lengths_of_ok {registry : String → Option String} {response : Response}
    {model_name : Option String} {rep : Report}
    (h : list_spacy_models registry response model_name = .ok (0, some rep)) :
    response.ok = true ∧ rep.header = reportHeader ∧
    rep.rows = (sortPieces (piecesOf model_name response.releases)).map (rowOf registry) ∧
    ∀ n ∈ retainedNames model_name (response.releases.map Release.name),
      (pySplit '-' n).length = 2 := by
  rw [list_spacy_models_ok_iff] at h
  obtain ⟨hok, hhdr, hrows⟩ := h
  rw [buildRows_ok_iff] at hrows
  refine ⟨hok, hhdr, hrows.2, ?_⟩
  intro n hn
  have hmem : pySplit '-' n ∈ sortPieces (piecesOf model_name response.releases) := by
    rw [mem_sortPieces]
    show pySplit '-' n ∈
      (retainedNames model_name (response.releases.map Release.name)).map (pySplit '-')
    exact List.mem_map_of_mem _ hn
  exact hrows.1 _ hmem

/-- A two-piece split determines the original identifier: it was the two
(hyphen-free) pieces joined by a single hyphen. -/
theorem pySplit_pair {n x y : String} (h : pySplit '-' n = [x, y]) :
    n.data = x.data ++ '-' :: y.data := by
  unfold pySplit at h
  rcases hc : pySplitChars '-' n.data with - | ⟨c1, - | ⟨c2, - | ⟨c3, t⟩⟩⟩ <;> rw [hc] at h
  · exact nomatch h
  · simp only [List.map_cons, List.map_nil, List.cons.injEq, and_true] at h
    exact nomatch h.2
  · simp only [List.map_cons, List.map_nil, List.cons.injEq, and_true] at h
    obtain ⟨rfl, rfl⟩ := h
    exact pySplitChars_pair hc
  · simp only [List.map_cons, List.cons.injEq] at h
    exact nomatch h.2.2

theorem length_two_eq {l : List String} (h : l.length = 2) : ∃ x y, l = [x, y] := by
  rcases l with - | ⟨x, - | ⟨y, - | ⟨z, t⟩⟩⟩
  · exact nomatch h
  · exact nomatch h
  · exact ⟨x, y, rfl⟩
  · simp at h

theorem piecesOf_perm {r1 r2 : List Release} (mn : Option String) (h : r1.Perm r2) :
    (piecesOf mn r1).Perm (piecesOf mn r2) :=
  (retainedNames_perm mn (h.map Release.name)).map (pySplit '-')

/-! ### The claims -/

/-- C9: `validate_out_path` raises `ParameterError` with message
`File "<path>" already exists.` exactly when the path names an existing
regular file, and returns the path unchanged exactly otherwise; the
filesystem appears only as a read-only predicate and is never mutated. -/
theorem c9_out_path_guard (is_file : String → Bool) (p : String) :
    (validate_out_path is_file p =
        .error (.badParameter ("File \"" ++ p ++ "\" already exists.")) ↔
      is_file p = true) ∧
    (validate_out_path is_file p = .ok p ↔ is_file p = false) := by
  unfold validate_out_path
  cases h : is_file p with
  | true => simp
  | false => simp

/-- C8: `validate_version_string` returns its input unchanged exactly when
the input matches one-or-more digits followed by one or more dot-digits
groups anchored at the start only, and raises `ParameterError` carrying the
value otherwise; in particular "1.2" and "2.0.1" pass through unchanged
while "v1.2", "1" and "abc" raise. -/
theorem c8_version_guard :
    (∀ v : String,
      (validate_version_string v = .ok v ↔ versionSpecMatch v) ∧
      (validate_version_string v = .error (.badParameter v) ↔ ¬versionSpecMatch v)) ∧
    validate_version_string "1.2" = .ok "1.2" ∧
    validate_version_string "2.0.1" = .ok "2.0.1" ∧
    validate_version_string "v1.2" = .error (.badParameter "v1.2") ∧
    validate_version_string "1" = .error (.badParameter "1") ∧
    validate_version_string "abc" = .error (.badParameter "abc") := by
  refine ⟨fun v => ?_, by decide, by decide, by decide, by decide, by decide⟩
  unfold validate_version_string
  rw [← matchVersionChars_iff]
  cases h : matchVersionChars v.data with
  | true => simp
  | false => simp

/-- C6: retention is exactly the prefix filter on full compound identifiers
when a filter name is given (order and multiplicity preserved), and the
identity when it is absent.  The Python-falsy empty filter name skips the
filter, which coincides with the prefix reading, the empty string being a
prefix of everything. -/
theorem c6_retention (s : String) (names : List String) :
    retainedNames (some s) names = names.filter (fun n => decide (s.data <+: n.data)) ∧
    retainedNames none names = names := by
  refine ⟨?_, rfl⟩
  rw [retainedNames]
  by_cases hs : s = ""
  · subst hs
    rw [if_pos rfl]
    have hall : ∀ n ∈ names, (true : Bool) = decide (("" : String).data <+: n.data) := by
      intro n hn
      rw [Bool.eq_iff_iff, decide_eq_true_eq]
      exact ⟨fun _ => ⟨n.data, rfl⟩, fun _ => rfl⟩
    calc names = names.filter (fun _ => true) := (List.filter_true names).symm
    _ = _ := List.filter_congr hall
  · rw [if_neg hs]
    refine List.filter_congr ?_
    intro n hn
    rw [Bool.eq_iff_iff, decide_eq_true_eq]
    exact charsPre_iff s.data n.data

/-- C1 counterexample: a successful response whose single release identifier
"abc" contains no hyphen makes the operation raise during tuple unpacking
instead of completing with a Report. -/
theorem c1_counterexample :
    (⟨true, [⟨"abc"⟩]⟩ : Response).ok = true ∧
    list_spacy_models (fun _ => none) ⟨true, [⟨"abc"⟩]⟩ none = .error () :=
  ⟨rfl, by decide⟩

/-- C1 amended: for every successful remote response all of whose retained
release identifiers split on hyphens into exactly two parts, the operation
completes and produces a Report, for every local registry — lookup misses
never abort it.  (An identifier with zero or several hyphens instead aborts
the operation with an uncaught error.) -/
theorem c1_amended (registry : String → Option String) (response : Response)
    (model_name : Option String) (hok : response.ok = true)
    (hsplit : ∀ n ∈ retainedNames model_name (response.releases.map Release.name),
      (pySplit '-' n).length = 2) :
    ∃ rep, list_spacy_models registry response model_name = .ok (0, some rep) :=
  ⟨_, ok_of_lengths registry response model_name hok hsplit⟩

/-- C1 witness: the amended theorem at a concrete one-release response. -/
theorem c1_witness :
    ∃ rep, list_spacy_models (fun _ => none) ⟨true, [⟨"a-1"⟩]⟩ none = .ok (0, some rep) :=
  c1_amended (fun _ => none) ⟨true, [⟨"a-1"⟩]⟩ none rfl (by decide)

/-- C2 counterexample: the identifier "a-b-c" has two hyphens; splitting on
the first hyphen would give the row ("a", "b-c"), but the code splits at
every hyphen into three pieces and the unpacking raises, producing no Report
at all. -/
theorem c2_counterexample :
    list_spacy_models (fun _ => none) ⟨true, [⟨"a-b-c"⟩]⟩ none = .error () ∧
    list_spacy_models (fun _ => none) ⟨true, [⟨"a-b-c"⟩]⟩ none ≠
      .ok (0, some ⟨reportHeader, [⟨"a", none, "b-c"⟩]⟩) :=
  ⟨by decide, by decide⟩

/-- C2 amended: a retained identifier with exactly one hyphen — hyphen-free
`a` and `b` joined by a single hyphen — yields exactly the row whose model
name is the substring before the hyphen and whose version is the substring
after it; identifiers with any other number of hyphens abort the operation. -/
theorem c2_amended (a b : String) (registry : String → Option String)
    (ha : '-' ∉ a.data) (hb : '-' ∉ b.data) :
    list_spacy_models registry ⟨true, [⟨⟨a.data ++ '-' :: b.data⟩⟩]⟩ none =
      .ok (0, some ⟨reportHeader, [⟨a, registry a, b⟩]⟩) := by
  have hsplit : pySplit '-' ⟨a.data ++ '-' :: b.data⟩ = [a, b] := by
    unfold pySplit
    rw [show (⟨a.data ++ '-' :: b.data⟩ : String).data = a.data ++ '-' :: b.data from rfl]
    rw [pySplitChars_append b.data ha, pySplitChars_of_not_mem hb]
    rfl
  rw [list_spacy_models_ok_iff]
  refine ⟨rfl, rfl, ?_⟩
  have hpieces : piecesOf none [⟨(⟨a.data ++ '-' :: b.data⟩ : String)⟩] = [[a, b]] := by
    unfold piecesOf retainedNames
    simp [hsplit]
  rw [hpieces, show sortPieces [[a, b]] = [[a, b]] from rfl, buildRows_ok_iff]
  refine ⟨?_, rfl⟩
  intro p hp
  rw [List.mem_singleton] at hp
  subst hp
  rfl

/-- C2 witness: the amended theorem at a concrete single-hyphen identifier. -/
theorem c2_witness :
    list_spacy_models (fun _ => none) ⟨true, [⟨"en_core_web_sm-2.3.1"⟩]⟩ none =
      .ok (0, some ⟨reportHeader, [⟨"en_core_web_sm", none, "2.3.1"⟩]⟩) :=
  c2_amended "en_core_web_sm" "2.3.1" (fun _ => none) (by decide) (by decide)

/-- C3 counterexample: two releases sharing the model name "a": permuting the
response body changes the produced Report (the stable sort keeps equal-keyed
pieces in arrival order), with the same registry on both sides. -/
theorem c3_counterexample :
    ([⟨"a-1.0"⟩, ⟨"a-2.0"⟩] : List Release).Perm [⟨"a-2.0"⟩, ⟨"a-1.0"⟩] ∧
    list_spacy_models (fun _ => none) ⟨true, [⟨"a-1.0"⟩, ⟨"a-2.0"⟩]⟩ none ≠
      list_spacy_models (fun _ => none) ⟨true, [⟨"a-2.0"⟩, ⟨"a-1.0"⟩]⟩ none :=
  ⟨List.Perm.swap _ _ _, by decide⟩

/-- C3 amended: for remote responses carrying the same multiset of releases
and one registry, if one reconciliation succeeds so does the other, with the
same header and with row lists that are permutations of each other; the row
lists coincide only up to the ordering of equal model names. -/
theorem c3_amended (registry : String → Option String) (r1 r2 : Response)
    (mn : Option String) (hperm : r1.releases.Perm r2.releases)
    (hok2 : r2.ok = true) (rep1 : Report)
    (h1 : list_spacy_models registry r1 mn = .ok (0, some rep1)) :
    ∃ rep2, list_spacy_models registry r2 mn = .ok (0, some rep2) ∧
      rep2.header = rep1.header ∧ rep1.rows.Perm rep2.rows := by
  obtain ⟨hok1, hhdr, hrows1, hlen1⟩ := lengths_of_ok h1
  have hlen2 : ∀ n ∈ retainedNames mn (r2.releases.map Release.name),
      (pySplit '-' n).length = 2 := by
    intro n hn
    exact hlen1 n ((retainedNames_perm mn (hperm.map Release.name)).mem_iff.mpr hn)
  refine ⟨⟨reportHeader, (sortPieces (piecesOf mn r2.releases)).map (rowOf registry)⟩,
    ok_of_lengths registry r2 mn hok2 hlen2, by rw [hhdr], ?_⟩
  rw [hrows1]
  refine List.Perm.map (rowOf registry) ?_
  exact ((perm_sortPieces _).trans (piecesOf_perm mn hperm)).trans
    (perm_sortPieces _).symm

/-- C3 witness: the amended theorem at a concrete swapped pair. -/
theorem c3_witness :
    ∃ rep2, list_spacy_models (fun _ => none) ⟨true, [⟨"b-2"⟩, ⟨"a-1"⟩]⟩ none =
        .ok (0, some rep2) ∧
      rep2.header = (⟨reportHeader, [⟨"a", none, "1"⟩, ⟨"b", none, "2"⟩]⟩ : Report).header ∧
      (⟨reportHeader, [⟨"a", none, "1"⟩, ⟨"b", none, "2"⟩]⟩ : Report).rows.Perm rep2.rows :=
  c3_amended (fun _ => none) ⟨true, [⟨"a-1"⟩, ⟨"b-2"⟩]⟩ ⟨true, [⟨"b-2"⟩, ⟨"a-1"⟩]⟩ none
    (by decide) rfl ⟨reportHeader, [⟨"a", none, "1"⟩, ⟨"b", none, "2"⟩]⟩ (by decide)

/-- C4 counterexample: a successful response whose identifier "x" has no
hyphen makes the operation raise — so it does not return 0 even though the
response is successful. -/
theorem c4_counterexample :
    (⟨true, [⟨"x"⟩]⟩ : Response).ok = true ∧
    list_spacy_models (fun _ => none) ⟨true, [⟨"x"⟩]⟩ none = .error () :=
  ⟨rfl, by decide⟩

/-- C4 amended: a non-success response short-circuits to status -1 with no
table printed, no registry query and no body parsing (the result is this
same constant for every registry and every body); the operation returns 0 —
with a printed table — exactly when the response is successful and every
retained identifier splits into exactly two pieces (otherwise a successful
response makes it raise rather than return). -/
theorem c4_amended (registry : String → Option String) (response : Response)
    (model_name : Option String) :
    (response.ok = false →
      list_spacy_models registry response model_name = .ok (-1, none)) ∧
    ((∃ rep, list_spacy_models registry response model_name = .ok (0, some rep)) ↔
      (response.ok = true ∧
        ∀ n ∈ retainedNames model_name (response.releases.map Release.name),
          (pySplit '-' n).length = 2)) := by
  constructor
  · intro hok
    unfold list_spacy_models
    rw [if_pos hok]
  · constructor
    · rintro ⟨rep, hrep⟩
      obtain ⟨hok, -, -, hlen⟩ := lengths_of_ok hrep
      exact ⟨hok, hlen⟩
    · rintro ⟨hok, hsplit⟩
      exact ⟨_, ok_of_lengths registry response model_name hok hsplit⟩

/-- C4 witness: the amended theorem at a concrete failed response. -/
theorem c4_witness :
    (⟨false, []⟩ : Response).ok = false ∧
    list_spacy_models (fun _ => none) ⟨false, []⟩ none = .ok (-1, none) :=
  ⟨rfl, (c4_amended (fun _ => none) ⟨false, []⟩ none).1 rfl⟩

/-- C5: in every successfully produced Report the data rows are sorted
ascending by model name under Python's case-sensitive lexicographic
comparison: every adjacent pair satisfies rows[i].name <= rows[i+1].name. -/
theorem c5_sorted_rows (registry : String → Option String) (response : Response)
    (model_name : Option String) (rep : Report)
    (h : list_spacy_models registry response model_name = .ok (0, some rep))
    (i : Nat) (hi : i + 1 < rep.rows.length) :
    pyStrLe (rep.rows.get ⟨i, Nat.lt_of_succ_lt hi⟩).name
      (rep.rows.get ⟨i + 1, hi⟩).name = true := by
  obtain ⟨-, -, hrows, -⟩ := lengths_of_ok h
  have hsorted : rep.rows.Pairwise (fun r1 r2 => pyStrLe r1.name r2.name = true) := by
    rw [hrows, List.pairwise_map]
    exact sorted_sortPieces (piecesOf model_name response.releases)
  exact List.pairwise_iff_get.mp hsorted ⟨i, Nat.lt_of_succ_lt hi⟩ ⟨i + 1, hi⟩
    (Nat.lt_succ_self i)

/-- C5 witness: the sortedness theorem at a concrete two-row Report. -/
theorem c5_witness :
    pyStrLe ((([⟨"a", none, "2"⟩, ⟨"b", none, "1"⟩] : List ReportRow).get
        ⟨0, by decide⟩).name)
      ((([⟨"a", none, "2"⟩, ⟨"b", none, "1"⟩] : List ReportRow).get ⟨1, by decide⟩).name)
      = true :=
  c5_sorted_rows (fun _ => none) ⟨true, [⟨"b-1"⟩, ⟨"a-2"⟩]⟩ none
    ⟨reportHeader, [⟨"a", none, "2"⟩, ⟨"b", none, "1"⟩]⟩ (by decide) 0 (by decide)

/-- C7: in every successfully produced Report, each row's installed-version
field is exactly the registry's answer for that row's model name (a lookup
miss giving null, never an error), and its latest-version field is exactly
the remote-reported version: some release of the response body carries the
compound identifier row.name ++ "-" ++ row.latest_version. -/
theorem c7_row_fields (registry : String → Option String) (response : Response)
    (model_name : Option String) (rep : Report)
    (h : list_spacy_models registry response model_name = .ok (0, some rep))
    (row : ReportRow) (hrow : row ∈ rep.rows) :
    row.installed_version = registry row.name ∧
    ∃ rel ∈ response.releases,
      rel.name.data = row.name.data ++ '-' :: row.latest_version.data := by
  obtain ⟨-, -, hrows, hlen⟩ := lengths_of_ok h
  rw [hrows] at hrow
  obtain ⟨p, hp, rfl⟩ := List.mem_map.mp hrow
  rw [mem_sortPieces] at hp
  obtain ⟨n, hn, rfl⟩ := List.mem_map.mp hp
  obtain ⟨x, y, hxy⟩ := length_two_eq (hlen n hn)
  have hjoin : n.data = x.data ++ '-' :: y.data := pySplit_pair hxy
  have hname : n ∈ response.releases.map Release.name := mem_retainedNames hn
  obtain ⟨rel, hrel, hreln⟩ := List.mem_map.mp hname
  rw [hxy]
  refine ⟨rfl, rel, hrel, ?_⟩
  rw [hreln, hjoin]
  rfl

/-- C7 witness: the row-fields theorem at a concrete report with one registry
hit and one miss. -/
theorem c7_witness :
    (⟨"a", some "0.9", "1"⟩ : ReportRow).installed_version =
      (fun n => if n = "a" then some "0.9" else none) (⟨"a", some "0.9", "1"⟩ : ReportRow).name ∧
    ∃ rel ∈ [(⟨"a-1"⟩ : Release), ⟨"b-2"⟩],
      rel.name.data = (⟨"a", some "0.9", "1"⟩ : ReportRow).name.data ++
        '-' :: (⟨"a", some "0.9", "1"⟩ : ReportRow).latest_version.data :=
  c7_row_fields (fun n => if n = "a" then some "0.9" else none)
    ⟨true, [⟨"a-1"⟩, ⟨"b-2"⟩]⟩ none
    ⟨reportHeader, [⟨"a", some "0.9", "1"⟩, ⟨"b", none, "2"⟩]⟩ (by decide)
    ⟨"a", some "0.9", "1"⟩ (by decide)

/-- C10: the sort is stable, so rows of releases sharing one model name
appear in the same relative order as those releases appeared in the remote
response: for every name k, the k-named rows of the Report are exactly the
k-keyed pieces in response order, turned into rows. -/
theorem c10_stable_order (registry : String → Option String) (response : Response)
    (model_name : Option String) (rep : Report)
    (h : list_spacy_models registry response model_name = .ok (0, some rep))
    (k : String) :
    rep.rows.filter (fun r => r.name == k) =
      ((piecesOf model_name response.releases).filter
        (fun p => pieceKey p == k)).map (rowOf registry) := by
  obtain ⟨-, -, hrows, -⟩ := lengths_of_ok h
  rw [hrows, List.filter_map,
    show ((fun r : ReportRow => r.name == k) ∘ rowOf registry) =
      (fun p => pieceKey p == k) from rfl,
    filter_sortPieces]

/-- C10 witness: the stability theorem at a duplicate-name response, where
the two "a"-rows keep the response order 2 before 1. -/
theorem c10_witness :
    ([⟨"a", none, "2"⟩, ⟨"a", none, "1"⟩] : List ReportRow).filter
        (fun r => r.name == "a") =
      ((piecesOf none [⟨"a-2"⟩, ⟨"a-1"⟩]).filter (fun p => pieceKey p == "a")).map
        (rowOf (fun _ => none)) :=
  c10_stable_order (fun _ => none) ⟨true, [⟨"a-2"⟩, ⟨"a-1"⟩]⟩ none
    ⟨reportHeader, [⟨"a", none, "2"⟩, ⟨"a", none, "1"⟩]⟩ (by decide) "a"

end Libratom
